import Mathlib

/-!
# Flags: colour-histogram matching (src/Flags/main.go)

A shallow embedding of the matching pipeline of `src/Flags/main.go`:
`newColorData`, `getImageDimensions`, `getPixels`, `compareImages` and
`findClosestMatch`, followed by theorems about them.

Modelling conventions.

* Go's `int` is the 64-bit signed integer.  It is modelled by `Int`, and every
  addition `compareImages` performs is followed by `wrapInt`, the silent
  wrap-around to 64 bits.  The counts `getPixels` stores are numbers of pixels
  of one image; an image held in memory has a pixel buffer of `4 * W * H` bytes
  whose length is an `int` (`Image.fits`), so these increments cannot wrap
  (`getPixels_le_total`, `fits_total_getPixels`).
* A `color.Color` is observed by the program only through its `RGBA()` method;
  it is modelled by the four `uint32` samples that method returns.
* A Go `map[colorData]int` is modelled by an association list with pairwise
  distinct keys (`Signature.WF`).  `range` over a map visits the entries in
  an unspecified order; the model visits them in list order, and the theorems
  hold for every list, hence for every order.
* `decodeImage` opens and decodes a file; it is a parameter of
  `findClosestMatch` (the state of the file system), and `os.FileInfo` is
  modelled by the file name, the only part of it the program reads.
-/

namespace Flags

/-- The struct `colorData` (main.go:13-17): three `uint32` fields. -/
structure colorData where
  R : Nat
  G : Nat
  B : Nat
deriving DecidableEq, Repr

/-- A `color.Color`, seen through `RGBA()`: the four samples it returns. -/
structure Color where
  r : Nat
  g : Nat
  b : Nat
  a : Nat
deriving DecidableEq, Repr

/-- The function `newColorData` (main.go:23-31): each channel shifted right by 8, alpha dropped. -/
def newColorData (c : Color) : colorData :=
  { R := c.r >>> 8
    G := c.g >>> 8
    B := c.b >>> 8 }

/-- An `image.Point`. -/
structure Point where
  X : Int
  Y : Int
deriving DecidableEq, Repr

/-- An `image.Rectangle`. -/
structure Rectangle where
  Min : Point
  Max : Point
deriving DecidableEq, Repr

/-- The method `Rectangle.Dx`. -/
def Rectangle.Dx (r : Rectangle) : Int := r.Max.X - r.Min.X

/-- The method `Rectangle.Dy`. -/
def Rectangle.Dy (r : Rectangle) : Int := r.Max.Y - r.Min.Y

/-- The method `Rectangle.Size`. -/
def Rectangle.Size (r : Rectangle) : Point :=
  { X := r.Max.X - r.Min.X
    Y := r.Max.Y - r.Min.Y }

/-- A decoded `*image.RGBA`: its bounds and its `At` method.  Its pixel buffer `Pix`
holds 4 bytes for each of its `Dx * Dy` pixels and the length of a slice is an `int`
(`image.NewRGBA` refuses larger bounds): this is the field `fits`. -/
structure Image where
  Rect : Rectangle
  At : Int → Int → Color
  fits : 4 * (Rect.Dx.toNat * Rect.Dy.toNat) ≤ 9223372036854775807

/-- The method `Bounds` of `*image.RGBA`. -/
def Image.Bounds (im : Image) : Rectangle := im.Rect

/-- The function `getImageDimensions` (main.go:51-54). -/
def getImageDimensions (im : Image) : Int × Int :=
  let b := im.Bounds
  (b.Dx, b.Dy)

/-- A `map[colorData]int`, as an association list. -/
abbrev Signature := List (colorData × Int)

/-- The keys of a map are pairwise distinct. -/
def Signature.WF (m : Signature) : Prop := (m.map Prod.fst).Nodup

instance (m : Signature) : Decidable m.WF :=
  inferInstanceAs (Decidable (m.map Prod.fst).Nodup)

/-- The map read `v, ok := m[k]`: `none` stands for `ok = false`. -/
def mapGet : Signature → colorData → Option Int
  | [], _ => none
  | (k', v) :: t, k => if k' = k then some v else mapGet t k

/-- The map write `m[k] = v`: overwrite the entry of `k`, or add one. -/
def mapSet : Signature → colorData → Int → Signature
  | [], k, v => [(k, v)]
  | (k', v') :: t, k, v => if k' = k then (k, v) :: t else (k', v') :: mapSet t k v

/-- The body of the inner loop of `getPixels` (main.go:62-69) at pixel `(i, j)`. -/
def countPixel (im : Image) (clrMap : Signature) (i j : Int) : Signature :=
  let c := im.At i j
  let cd := newColorData c
  match mapGet clrMap cd with
  | none => mapSet clrMap cd 1
  | some v => mapSet clrMap cd (v + 1)

/-- The function `getPixels` (main.go:56-73): `i` runs over `0 .. bnds.X - 1`, and
for each `i`, `j` runs over `0 .. bnds.Y - 1`.  The error is always `nil`. -/
def getPixels (im : Image) : Signature × Option String :=
  let bnds := im.Bounds.Size
  let clrMap := (List.range bnds.X.toNat).foldl
    (fun (m : Signature) (i : Nat) => (List.range bnds.Y.toNat).foldl
      (fun (m : Signature) (j : Nat) => countPixel im m (i : Int) (j : Int)) m) []
  (clrMap, none)

/-- The value a Go `int` holds after an operation whose exact result is `x`: the
representative of `x` modulo `2^64` in `-2^63 .. 2^63 - 1`. -/
def wrapInt (x : Int) : Int :=
  (x + 9223372036854775808) % 18446744073709551616 - 9223372036854775808

/-- The body of the first loop of `compareImages` (main.go:89-100); the state is
`(im1Ct, inCommon)`, both Go `int`. -/
def compareStep (im2 : Signature) (acc : Int × Int) (e : colorData × Int) : Int × Int :=
  let clr := e.1
  let ct1 := e.2
  let inCommon :=
    match mapGet im2 clr with
    | some ct2 => if ct1 < ct2 then wrapInt (acc.2 + ct1) else wrapInt (acc.2 + ct2)
    | none => acc.2
  (wrapInt (acc.1 + ct1), inCommon)

/-- The function `compareImages` (main.go:87-108): the score and the error.  The three
counters `im1Ct`, `im2Ct` and `inCommon` are Go `int`: each `+=` wraps to 64 bits. -/
def compareImages (im1 im2 : Signature) : Int × Option String :=
  let r := im1.foldl (compareStep im2) (0, 0)
  let im1Ct := r.1
  let inCommon := r.2
  let im2Ct := im2.foldl (fun c e => wrapInt (c + e.2)) 0
  if im1Ct ≠ im2Ct then
    (0, some "pixel count between the images are not the same")
  else
    (inCommon, none)

/-- The loop of `findClosestMatch` (main.go:117-140) over the remaining files, from the
state `(bestRank, bestImage)`. -/
def matchLoop (decodeImage : String → Except String Image) (targetW targetH : Int)
    (mysteryPx : Signature) : List String → Int → String → String × Int × Option String
  | [], bestRank, bestImage => (bestImage, bestRank, none)
  | f :: fs, bestRank, bestImage =>
    match decodeImage ("flags/" ++ f) with
    | .error _ => matchLoop decodeImage targetW targetH mysteryPx fs bestRank bestImage
    | .ok thisFlag =>
      let d := getImageDimensions thisFlag
      if d.1 ≠ targetW ∨ d.2 ≠ targetH then
        matchLoop decodeImage targetW targetH mysteryPx fs bestRank bestImage
      else
        match getPixels thisFlag with
        | (_, some err) => ("", 0, some err)
        | (thesePx, none) =>
          match compareImages mysteryPx thesePx with
          | (_, some err) => ("", 0, some err)
          | (rank, none) =>
            if rank > bestRank then
              matchLoop decodeImage targetW targetH mysteryPx fs rank f
            else
              matchLoop decodeImage targetW targetH mysteryPx fs bestRank bestImage

/-- The function `findClosestMatch` (main.go:110-141): name, score, error. -/
def findClosestMatch (decodeImage : String → Except String Image) (im : Image)
    (flags : List String) : String × Int × Option String :=
  let d := getImageDimensions im
  match getPixels im with
  | (_, some err) => ("", 0, some err)
  | (mysteryPx, none) => matchLoop decodeImage d.1 d.2 mysteryPx flags 0 ""

/-! ## Notions of the specification -/

/-- The integer is a value of Go's `int`: it lies in `-2^63 .. 2^63 - 1`. -/
def FitsInt (x : Int) : Prop := -9223372036854775808 ≤ x ∧ x ≤ 9223372036854775807

instance (x : Int) : Decidable (FitsInt x) :=
  inferInstanceAs (Decidable (-9223372036854775808 ≤ x ∧ x ≤ 9223372036854775807))

/-- The sum of all counts of a signature. -/
def total (m : Signature) : Int := (m.map Prod.snd).sum

/-- Every count of the signature is non-negative. -/
def NonNeg (m : Signature) : Prop := ∀ e ∈ m, 0 ≤ e.2

instance (m : Signature) : Decidable (NonNeg m) :=
  inferInstanceAs (Decidable (∀ e ∈ m, 0 ≤ e.2))

/-- The set of keys present in a signature. -/
def keySet (m : Signature) : Finset colorData := (m.map Prod.fst).toFinset

/-- The count of a key in a signature, taken as 0 when the key is absent. -/
def countOf (m : Signature) (k : colorData) : Int := (mapGet m k).getD 0

/-- Histogram intersection: the sum, over every key present in `A`, of the smaller of its
counts in `A` and in `B`. -/
def intersection (A B : Signature) : Int :=
  ∑ k ∈ keySet A, min (countOf A k) (countOf B k)

/-- The number of pixel positions `(x, y)` with `0 ≤ x < W` and `0 ≤ y < H` whose colour
quantises to the key `k`. -/
def pixelCount (im : Image) (W H : Nat) (k : colorData) : Nat :=
  ((Finset.range W ×ˢ Finset.range H).filter
    (fun p => newColorData (im.At (p.1 : Int) (p.2 : Int)) = k)).card

/-- The score of a candidate file against the mystery image: `some` of the
`compareImages` score when the file decodes and has the mystery's width and height,
`none` otherwise. -/
def candidateScore (decodeImage : String → Except String Image) (im : Image)
    (f : String) : Option Int :=
  match decodeImage ("flags/" ++ f) with
  | .error _ => none
  | .ok thisFlag =>
    if getImageDimensions thisFlag = getImageDimensions im then
      some (compareImages (getPixels im).1 (getPixels thisFlag).1).1
    else none

/-- The file `f` of the directory `flags/` decodes. -/
def decodes (decodeImage : String → Except String Image) (f : String) : Bool :=
  match decodeImage ("flags/" ++ f) with
  | .ok _ => true
  | .error _ => false

/-- Two signatures are equal as maps: every key has the same entry, or none, in both. -/
def SigEq (A B : Signature) : Prop := ∀ k : colorData, mapGet A k = mapGet B k

/-- The statement of the specification on the empty name, at one input: if
`findClosestMatch` returns the empty name without error, then the candidate set is empty,
or no candidate shares the mystery's dimensions, or every candidate sharing the mystery's
dimensions failed to decode. -/
def emptyNameClaim (decodeImage : String → Except String Image) (im : Image)
    (flags : List String) : Prop :=
  (findClosestMatch decodeImage im flags).1 = "" →
  (findClosestMatch decodeImage im flags).2.2 = none →
    flags = [] ∨
    (∀ f ∈ flags, ∀ fl, decodeImage ("flags/" ++ f) = .ok fl →
      getImageDimensions fl ≠ getImageDimensions im) ∨
    (∀ f ∈ flags, ∀ fl, getImageDimensions fl = getImageDimensions im →
      decodeImage ("flags/" ++ f) ≠ .ok fl)

/-! ## Auxiliary definitions -/

/-- The update `getPixels` applies to its map for one pixel of quantised colour `cd`
(main.go:64-69). -/
def bump (m : Signature) (cd : colorData) : Signature :=
  match mapGet m cd with
  | none => mapSet m cd 1
  | some v => mapSet m cd (v + 1)

/-- The pixel positions `getPixels` visits, in the order it visits them. -/
def visits (W H : Nat) : List (Nat × Nat) := List.range W ×ˢ List.range H

/-- What the first loop of `compareImages` adds to `inCommon` for the entry `e` of its
first argument (main.go:90-97). -/
def overlap (im2 : Signature) (e : colorData × Int) : Int :=
  match mapGet im2 e.1 with
  | some ct2 => if e.2 < ct2 then e.2 else ct2
  | none => 0

/-- The loop of `findClosestMatch` as `findClosestMatch` starts it for the mystery image
`im`, from the state `(bestRank, bestImage)`. -/
def runLoop (decodeImage : String → Except String Image) (im : Image)
    (flags : List String) (bestRank : Int) (bestImage : String) : String × Int × Option String :=
  matchLoop decodeImage (getImageDimensions im).1 (getImageDimensions im).2 (getPixels im).1
    flags bestRank bestImage

/-! ## Concrete inputs -/

/-- A decoded image of width `W` and height `H` with origin `(0, 0)`: `pix x y` inside the
bounds, and transparent black outside them, as `At` of `*image.RGBA` answers there. -/
def mkImage (W H : Nat) (pix : Nat → Nat → Color)
    (h : 4 * (W * H) ≤ 9223372036854775807) : Image :=
  { Rect := { Min := { X := 0, Y := 0 }, Max := { X := W, Y := H } }
    At := fun x y =>
      if 0 ≤ x ∧ x < W ∧ 0 ≤ y ∧ y < H then pix x.toNat y.toNat
      else { r := 0, g := 0, b := 0, a := 0 }
    fits := by simpa [Rectangle.Dx, Rectangle.Dy] using h }

/-- Opaque red, as `RGBA()` returns it. -/
def red : Color := { r := 65535, g := 0, b := 0, a := 65535 }

/-- Opaque blue, as `RGBA()` returns it. -/
def blue : Color := { r := 0, g := 0, b := 65535, a := 65535 }

/-- A 2x1 image with pixels red, blue. -/
def redBlue : Image := mkImage 2 1 (fun x _ => if x = 0 then red else blue) (by decide)

/-- A 2x1 image with pixels red, red. -/
def redRed : Image := mkImage 2 1 (fun _ _ => red) (by decide)

/-- A 3x1 image with pixels red, red, red. -/
def red3 : Image := mkImage 3 1 (fun _ _ => red) (by decide)

/-- A 2x1 image with pixels blue, blue. -/
def blueBlue : Image := mkImage 2 1 (fun _ _ => blue) (by decide)

/-- A 2x2 image, all red. -/
def red2x2 : Image := mkImage 2 2 (fun _ _ => red) (by decide)

/-- A 3x3 image, all red. -/
def red3x3 : Image := mkImage 3 3 (fun _ _ => red) (by decide)

/-- A directory `flags/` holding the single file `name`, which decodes to `img`. -/
def singleFile (name : String) (img : Image) (path : String) : Except String Image :=
  if path = "flags/" ++ name then .ok img else .error "open: no such file or directory"

/-- The signature of a 2x1 image with pixels red, red. -/
def sigRedRed : Signature := [({ R := 255, G := 0, B := 0 }, 2)]

/-- The signature of a 2x1 image with pixels red, blue. -/
def sigRedBlue : Signature := [({ R := 255, G := 0, B := 0 }, 1), ({ R := 0, G := 0, B := 255 }, 1)]

/-- The signature of a 2x1 image with pixels blue, red. -/
def sigBlueRed : Signature := [({ R := 0, G := 0, B := 255 }, 1), ({ R := 255, G := 0, B := 0 }, 1)]

/-- A map with two keys whose counts sum to `2^63`, one more than the largest `int`. -/
def sigHuge : Signature :=
  [({ R := 255, G := 0, B := 0 }, 9223372036854775807), ({ R := 0, G := 0, B := 255 }, 1)]

/-- A map with four keys of count `2^62`: their sum is `2^64`. -/
def sigFour : Signature :=
  [({ R := 1, G := 0, B := 0 }, 4611686018427387904),
   ({ R := 2, G := 0, B := 0 }, 4611686018427387904),
   ({ R := 3, G := 0, B := 0 }, 4611686018427387904),
   ({ R := 4, G := 0, B := 0 }, 4611686018427387904)]

/-- The signature of a 3x1 image with pixels blue, blue, blue. -/
def sigBlue3 : Signature := [({ R := 0, G := 0, B := 255 }, 3)]

/-- A directory `flags/` holding `a.png` (red, blue), `b.png` and `d.png` (red, red),
`c.png` (3x1) and nothing else that decodes. -/
def sampleFiles (path : String) : Except String Image :=
  if path = "flags/a.png" then .ok redBlue
  else if path = "flags/b.png" then .ok redRed
  else if path = "flags/c.png" then .ok red3
  else if path = "flags/d.png" then .ok redRed
  else .error "image: unknown format"

/-! ## Maps -/

theorem mapGet_mapSet (m : Signature) (k k' : colorData) (v : Int) :
    mapGet (mapSet m k v) k' = if k = k' then some v else mapGet m k' := by
  induction m with
  | nil => simp [mapSet, mapGet]
  | cons e t ih =>
    obtain ⟨a, w⟩ := e
    by_cases h : a = k
    · subst h
      by_cases h2 : a = k' <;> simp [mapSet, mapGet, h2]
    · by_cases h2 : a = k'
      · subst h2
        have h3 : ¬ k = a := fun h4 => h h4.symm
        simp [mapSet, mapGet, h, h3]
      · simp [mapSet, mapGet, h, h2, ih]

theorem keys_mapSet (m : Signature) (k : colorData) (v : Int) :
    (mapSet m k v).map Prod.fst =
      if k ∈ m.map Prod.fst then m.map Prod.fst else m.map Prod.fst ++ [k] := by
  induction m with
  | nil => simp [mapSet]
  | cons e t ih =>
    obtain ⟨a, w⟩ := e
    by_cases h : a = k
    · subst h
      simp [mapSet]
    · have h3 : ¬ k = a := fun h4 => h h4.symm
      by_cases h2 : k ∈ t.map Prod.fst
      · simp only [mapSet, h, if_false, List.map_cons, ih, h2, if_true, List.mem_cons, or_true]
      · simp only [mapSet, h, if_false, List.map_cons, ih, h2, List.mem_cons, h3, or_self,
          List.cons_append]

theorem WF_mapSet (m : Signature) (k : colorData) (v : Int) (h : m.WF) :
    (mapSet m k v).WF := by
  unfold Signature.WF at *
  rw [keys_mapSet]
  by_cases h2 : k ∈ m.map Prod.fst
  · simpa [h2] using h
  · rw [if_neg h2]
    exact List.Nodup.append h (List.nodup_singleton k) (by simpa using h2)

theorem mapGet_eq_none_iff (m : Signature) (k : colorData) :
    mapGet m k = none ↔ k ∉ m.map Prod.fst := by
  induction m with
  | nil => simp [mapGet]
  | cons e t ih =>
    obtain ⟨a, w⟩ := e
    by_cases h : a = k
    · subst h; simp [mapGet]
    · have h3 : ¬ k = a := fun h4 => h h4.symm
      simp [mapGet, h, h3, ih]

theorem mapGet_of_mem (m : Signature) (h : m.WF) (e : colorData × Int) (he : e ∈ m) :
    mapGet m e.1 = some e.2 := by
  induction m with
  | nil => simp at he
  | cons x t ih =>
    obtain ⟨a, w⟩ := x
    unfold Signature.WF at h
    simp only [List.map_cons, List.nodup_cons] at h
    rcases List.mem_cons.mp he with rfl | he2
    · simp [mapGet]
    · have hne : a ≠ e.1 := by
        intro h4
        apply h.1
        rw [h4]
        exact List.mem_map_of_mem Prod.fst he2
      simp only [mapGet, hne, if_false]
      exact ih h.2 he2

theorem total_mapSet (m : Signature) (k : colorData) (v : Int) :
    total (mapSet m k v) = total m - countOf m k + v := by
  induction m with
  | nil => simp [mapSet, total, countOf, mapGet]
  | cons e t ih =>
    obtain ⟨a, w⟩ := e
    by_cases h : a = k
    · subst h
      simp [mapSet, total, countOf, mapGet]
      ring
    · simp only [total, countOf, mapSet, h, if_false, List.map_cons, List.sum_cons, mapGet] at *
      rw [ih]; ring

/-! ## The signature builder -/

theorem countPixel_eq_bump (im : Image) (m : Signature) (i j : Int) :
    countPixel im m i j = bump m (newColorData (im.At i j)) := rfl

theorem mapGet_bump (m : Signature) (c k : colorData) :
    mapGet (bump m c) k = if c = k then some (countOf m c + 1) else mapGet m k := by
  unfold bump countOf
  cases h : mapGet m c <;> simp [mapGet_mapSet]

theorem WF_bump (m : Signature) (c : colorData) (h : m.WF) : (bump m c).WF := by
  unfold bump
  cases mapGet m c <;> exact WF_mapSet _ _ _ h

theorem total_bump (m : Signature) (c : colorData) : total (bump m c) = total m + 1 := by
  unfold bump
  cases h : mapGet m c <;> simp only [total_mapSet, countOf, h, Option.getD] <;> ring

theorem mapGet_foldl_bump (ks : List colorData) (m : Signature) (k : colorData) :
    mapGet (ks.foldl bump m) k =
      if ks.count k = 0 then mapGet m k else some (countOf m k + (ks.count k : Nat)) := by
  induction ks generalizing m with
  | nil => simp
  | cons c t ih =>
    rw [List.foldl_cons, ih, List.count_cons]
    by_cases hc : c = k
    · subst hc
      by_cases ht : List.count c t = 0
      · simp [ht, mapGet_bump]
      · simp only [ht, if_false, beq_self_eq_true, if_true, Nat.add_eq_zero, one_ne_zero,
          and_false, countOf, mapGet_bump, Option.getD_some, Option.some.injEq]
        push_cast
        ring
    · have hb : (c == k) = false := by simpa using hc
      simp only [hb, Bool.false_eq_true, if_false, add_zero, countOf, mapGet_bump, hc]

theorem WF_foldl_bump (ks : List colorData) (m : Signature) (h : m.WF) :
    (ks.foldl bump m).WF := by
  induction ks generalizing m with
  | nil => simpa using h
  | cons c t ih => exact ih _ (WF_bump m c h)

theorem total_foldl_bump (ks : List colorData) (m : Signature) :
    total (ks.foldl bump m) = total m + (ks.length : Nat) := by
  induction ks generalizing m with
  | nil => simp
  | cons c t ih =>
    rw [List.foldl_cons, ih, total_bump, List.length_cons]
    push_cast
    ring

theorem foldl_product {α β σ : Type} (f : σ → α × β → σ) (l1 : List α) (l2 : List β) (s : σ) :
    (l1 ×ˢ l2).foldl f s = l1.foldl (fun s a => l2.foldl (fun s b => f s (a, b)) s) s := by
  induction l1 generalizing s with
  | nil => simp
  | cons a t ih =>
    rw [List.product_cons, List.foldl_append, ih, List.foldl_map, List.foldl_cons]

/-- The map `getPixels` returns is the fold of `bump` over the quantised colours of the
visited positions. -/
theorem getPixels_eq_foldl (im : Image) :
    (getPixels im).1 =
      ((visits im.Bounds.Dx.toNat im.Bounds.Dy.toNat).map
        (fun p => newColorData (im.At (p.1 : Int) (p.2 : Int)))).foldl bump [] := by
  unfold getPixels visits
  simp only [List.foldl_map, foldl_product, countPixel_eq_bump]
  rfl

theorem count_visits (im : Image) (W H : Nat) (k : colorData) :
    ((visits W H).map (fun p => newColorData (im.At (p.1 : Int) (p.2 : Int)))).count k =
      pixelCount im W H k := by
  unfold pixelCount visits
  have hnd : (List.range W ×ˢ List.range H).Nodup :=
    List.Nodup.product (List.nodup_range W) (List.nodup_range H)
  have hfin : (Finset.range W ×ˢ Finset.range H) = (List.range W ×ˢ List.range H).toFinset := by
    ext p
    obtain ⟨a, b⟩ := p
    simp [List.pair_mem_product, Finset.mem_product]
  have hfilter : Finset.filter (fun p : Nat × Nat => newColorData (im.At (p.1 : Int) (p.2 : Int)) = k)
      (List.range W ×ˢ List.range H).toFinset =
      ((List.range W ×ˢ List.range H).filter
        (fun p => decide (newColorData (im.At (p.1 : Int) (p.2 : Int)) = k))).toFinset := by
    ext p
    simp
  rw [hfin, hfilter, List.toFinset_card_of_nodup (hnd.filter _),
    List.count_eq_countP, List.countP_map, List.countP_eq_length_filter]
  congr 1

theorem total_getPixels (im : Image) :
    total (getPixels im).1 = ((im.Bounds.Dx.toNat * im.Bounds.Dy.toNat : Nat) : Int) := by
  rw [getPixels_eq_foldl, total_foldl_bump]
  simp [visits, total, List.length_product]

theorem WF_getPixels (im : Image) : (getPixels im).1.WF := by
  rw [getPixels_eq_foldl]
  exact WF_foldl_bump _ _ (by simp [Signature.WF])

theorem getPixels_snd (im : Image) : (getPixels im).2 = none := rfl

/-- C1. For every decoded image of width `W` and height `H`, `getPixels` returns a nil error
and a map with pairwise distinct keys in which every colour key `k` is absent when no pixel
position of `[0,W) x [0,H)` quantises (`newColorData`) to `k`, and otherwise is stored with
the number of such positions.  (Nothing is assumed of the origin of the bounds; the grid is
empty when a dimension is not positive.) -/
theorem getPixels_counts (im : Image) :
    (getPixels im).2 = none ∧ (getPixels im).1.WF ∧
    ∀ k : colorData,
      mapGet (getPixels im).1 k =
        if pixelCount im im.Bounds.Dx.toNat im.Bounds.Dy.toNat k = 0 then none
        else some ((pixelCount im im.Bounds.Dx.toNat im.Bounds.Dy.toNat k : Nat) : Int) := by
  refine ⟨rfl, WF_getPixels im, ?_⟩
  intro k
  rw [getPixels_eq_foldl, mapGet_foldl_bump, count_visits]
  simp [countOf, mapGet]

/-- C2. Signature totals invariant: for every decoded image of width `W >= 0` and height
`H >= 0`, the counts of the map `getPixels` returns sum to `W * H`. -/
theorem getPixels_total (im : Image) (hW : 0 ≤ (getImageDimensions im).1)
    (hH : 0 ≤ (getImageDimensions im).2) :
    total (getPixels im).1 = (getImageDimensions im).1 * (getImageDimensions im).2 := by
  rw [total_getPixels]
  simp only [getImageDimensions] at *
  push_cast
  rw [Int.toNat_of_nonneg hW, Int.toNat_of_nonneg hH]

theorem getPixels_total_witness :
    0 ≤ (getImageDimensions redBlue).1 ∧ 0 ≤ (getImageDimensions redBlue).2 ∧
    total (getPixels redBlue).1 = 2 * 1 :=
  ⟨by decide, by decide, getPixels_total redBlue (by decide) (by decide)⟩

/-! ## The similarity scorer -/

theorem wrapInt_of_fits (x : Int) (h : FitsInt x) : wrapInt x = x := by
  unfold FitsInt at h
  unfold wrapInt
  omega

theorem fits_wrapInt (x : Int) : FitsInt (wrapInt x) := by
  unfold FitsInt wrapInt
  omega

theorem wrapInt_wrapInt_add (a b : Int) : wrapInt (wrapInt a + b) = wrapInt (a + b) := by
  unfold wrapInt
  omega

theorem foldl_compareStep (B A : Signature) (acc : Int × Int) (h1 : wrapInt acc.1 = acc.1)
    (h2 : wrapInt acc.2 = acc.2) :
    A.foldl (compareStep B) acc =
      (wrapInt (acc.1 + total A), wrapInt (acc.2 + (A.map (overlap B)).sum)) := by
  induction A generalizing acc with
  | nil => simp [total, h1, h2]
  | cons e t ih =>
    rw [List.foldl_cons]
    have e1 : (compareStep B acc e).1 = wrapInt (acc.1 + e.2) := rfl
    have e2 : (compareStep B acc e).2 = wrapInt (acc.2 + overlap B e) := by
      simp only [compareStep, overlap]
      cases hB : mapGet B e.1 with
      | none => simp [h2]
      | some ct2 => by_cases hlt : e.2 < ct2 <;> simp [hlt]
    have f1 : wrapInt (compareStep B acc e).1 = (compareStep B acc e).1 := by
      rw [e1]; exact wrapInt_of_fits _ (fits_wrapInt _)
    have f2 : wrapInt (compareStep B acc e).2 = (compareStep B acc e).2 := by
      rw [e2]; exact wrapInt_of_fits _ (fits_wrapInt _)
    rw [ih _ f1 f2, e1, e2, wrapInt_wrapInt_add, wrapInt_wrapInt_add]
    simp only [total, List.map_cons, List.sum_cons, add_assoc]

theorem foldl_add_total (B : Signature) (c : Int) (h : wrapInt c = c) :
    B.foldl (fun c e => wrapInt (c + e.2)) c = wrapInt (c + total B) := by
  induction B generalizing c with
  | nil => simp [total, h]
  | cons e t ih =>
    rw [List.foldl_cons, ih _ (wrapInt_of_fits _ (fits_wrapInt _)), wrapInt_wrapInt_add]
    simp only [total, List.map_cons, List.sum_cons, add_assoc]

/-- What `compareImages` computes, in closed form: the totals are compared, and the
overlaps summed, as 64-bit integers. -/
theorem compareImages_eq (A B : Signature) :
    compareImages A B =
      if wrapInt (total A) ≠ wrapInt (total B) then
        (0, some "pixel count between the images are not the same")
      else (wrapInt ((A.map (overlap B)).sum), none) := by
  unfold compareImages
  have h0 : wrapInt 0 = 0 := by decide
  simp only [foldl_compareStep B A (0, 0) h0 h0, foldl_add_total B 0 h0, zero_add]

theorem mem_keySet (m : Signature) (k : colorData) :
    k ∈ keySet m ↔ mapGet m k ≠ none := by
  rw [Ne, mapGet_eq_none_iff, keySet, List.mem_toFinset, not_not]

theorem countOf_of_not_mem (m : Signature) (k : colorData) (h : k ∉ keySet m) :
    countOf m k = 0 := by
  rw [mem_keySet, not_not] at h
  simp [countOf, h]

theorem countOf_of_mem (m : Signature) (h : m.WF) (e : colorData × Int) (he : e ∈ m) :
    countOf m e.1 = e.2 := by
  simp [countOf, mapGet_of_mem m h e he]

theorem mem_of_mapGet (m : Signature) (k : colorData) (v : Int) (h : mapGet m k = some v) :
    (k, v) ∈ m := by
  induction m with
  | nil => simp [mapGet] at h
  | cons e t ih =>
    obtain ⟨a, w⟩ := e
    by_cases hk : a = k
    · simp only [mapGet, hk, if_true, Option.some.injEq] at h
      simp [hk, h]
    · simp only [mapGet, hk, if_false] at h
      exact List.mem_cons_of_mem _ (ih h)

theorem overlap_eq (A B : Signature) (hA : A.WF) (e : colorData × Int) (he : e ∈ A) :
    overlap B e =
      if e.1 ∈ keySet B then min (countOf A e.1) (countOf B e.1) else 0 := by
  rw [countOf_of_mem A hA e he]
  have hmem := mem_keySet B e.1
  unfold overlap countOf
  cases hB : mapGet B e.1 with
  | none =>
    rw [hB] at hmem
    rw [if_neg (by simpa using hmem)]
  | some ct2 =>
    rw [hB] at hmem
    rw [if_pos (by simpa using hmem)]
    by_cases hlt : e.2 < ct2
    · simp [hlt, min_eq_left (le_of_lt hlt)]
    · simp [hlt, min_eq_right (not_lt.mp hlt)]

/-- The score of the first loop of `compareImages`, as a sum over the keys common to both
signatures. -/
theorem overlap_sum_common (A B : Signature) (hA : A.WF) :
    (A.map (overlap B)).sum =
      ∑ k ∈ keySet A ∩ keySet B, min (countOf A k) (countOf B k) := by
  rw [← Finset.sum_ite_mem, keySet, List.sum_toFinset _ hA, List.map_map]
  congr 1
  apply List.map_congr_left
  intro e he
  exact overlap_eq A B hA e he

theorem countOf_nonneg (m : Signature) (h : NonNeg m) (k : colorData) : 0 ≤ countOf m k := by
  unfold countOf
  cases hk : mapGet m k with
  | none => simp
  | some v => exact h (k, v) (mem_of_mapGet m k v hk)

theorem overlap_nonneg (A B : Signature) (hA : NonNeg A) (hB : NonNeg B)
    (e : colorData × Int) (he : e ∈ A) : 0 ≤ overlap B e := by
  have h1 := hA e he
  unfold overlap
  cases hk : mapGet B e.1 with
  | none => simp
  | some v =>
    have h2 := hB (e.1, v) (mem_of_mapGet B e.1 v hk)
    simp only at h2 ⊢
    split <;> assumption

theorem overlap_le (B : Signature) (e : colorData × Int) (he : 0 ≤ e.2) : overlap B e ≤ e.2 := by
  unfold overlap
  cases hk : mapGet B e.1 with
  | none => simpa using he
  | some v =>
    simp only
    split <;> omega

theorem total_nonneg (m : Signature) (h : NonNeg m) : 0 ≤ total m := by
  unfold total
  apply List.sum_nonneg
  intro x hx
  obtain ⟨e, he, rfl⟩ := List.mem_map.mp hx
  exact h e he

theorem overlap_sum_keys (A B : Signature) (hA : A.WF) (hnA : NonNeg A) :
    (A.map (overlap B)).sum = intersection A B := by
  rw [overlap_sum_common A B hA, intersection, ← Finset.sum_ite_mem]
  apply Finset.sum_congr rfl
  intro k _
  by_cases hk : k ∈ keySet B
  · rw [if_pos hk]
  · rw [if_neg hk, countOf_of_not_mem B k hk, min_eq_right (countOf_nonneg A hnA k)]

theorem overlap_sum_le_total (A B : Signature) (hnA : NonNeg A) :
    (A.map (overlap B)).sum ≤ total A := by
  show (A.map (overlap B)).sum ≤ (A.map Prod.snd).sum
  apply List.sum_le_sum
  intro e he
  exact overlap_le B e (hnA e he)

theorem overlap_sum_nonneg (A B : Signature) (hnA : NonNeg A) (hnB : NonNeg B) :
    0 ≤ (A.map (overlap B)).sum := by
  apply List.sum_nonneg
  intro x hx
  obtain ⟨e, he, rfl⟩ := List.mem_map.mp hx
  exact overlap_nonneg A B hnA hnB e he

/-- On signatures with non-negative counts whose totals are values of Go's `int`, no
addition of `compareImages` wraps. -/
theorem compareImages_eq_of_fits (A B : Signature) (hnA : NonNeg A) (hnB : NonNeg B)
    (hA : total A ≤ 9223372036854775807) (hB : total B ≤ 9223372036854775807) :
    compareImages A B =
      if total A ≠ total B then (0, some "pixel count between the images are not the same")
      else ((A.map (overlap B)).sum, none) := by
  have h1 := total_nonneg A hnA
  have h2 := total_nonneg B hnB
  have h3 := overlap_sum_nonneg A B hnA hnB
  have h4 := overlap_sum_le_total A B hnA
  rw [compareImages_eq, wrapInt_of_fits (total A) ⟨by omega, hA⟩,
    wrapInt_of_fits (total B) ⟨by omega, hB⟩,
    wrapInt_of_fits ((A.map (overlap B)).sum) ⟨by omega, by omega⟩]

/-- C3 (as stated, refuted). The two keys of `sigHuge` have the non-negative counts
`2^63 - 1` and `1`; compared with itself, the sum of the minima is `2^63`, but the
64-bit additions of `compareImages` wrap and it returns `-2^63`. -/
theorem compareImages_intersection_counterexample :
    sigHuge.WF ∧ NonNeg sigHuge ∧ total sigHuge = total sigHuge ∧
    intersection sigHuge sigHuge = 9223372036854775808 ∧
    compareImages sigHuge sigHuge = (-9223372036854775808, none) ∧
    compareImages sigHuge sigHuge ≠ (intersection sigHuge sigHuge, none) := by
  have h1 : intersection sigHuge sigHuge = 9223372036854775808 := by
    rw [← overlap_sum_keys sigHuge sigHuge (by decide) (by decide)]
    decide
  refine ⟨by decide, by decide, rfl, h1, by decide, ?_⟩
  rw [h1]
  decide

/-- C3 (amended). For all signatures `A` and `B` with non-negative counts and equal totals
that are values of Go's `int` (at most `2^63 - 1`), `compareImages A B` returns no error
and the sum, over every key `k` present in `A`, of `min (A[k]) (B[k])`, where `B[k]` is 0
when `k` is absent from `B`. -/
theorem compareImages_intersection (A B : Signature) (hA : A.WF) (hnA : NonNeg A)
    (hnB : NonNeg B) (ht : total A = total B) (hfit : total A ≤ 9223372036854775807) :
    compareImages A B = (intersection A B, none) := by
  rw [compareImages_eq_of_fits A B hnA hnB hfit (ht ▸ hfit), if_neg (not_not.mpr ht),
    overlap_sum_keys A B hA hnA]

theorem compareImages_intersection_witness :
    sigRedRed.WF ∧ NonNeg sigRedRed ∧ total sigRedRed = total sigRedBlue ∧
    compareImages sigRedRed sigRedBlue = (intersection sigRedRed sigRedBlue, none) :=
  ⟨by decide, by decide, by decide,
    compareImages_intersection sigRedRed sigRedBlue (by decide) (by decide) (by decide)
      (by decide) (by decide)⟩

/-- C4 (as stated, refuted). The four counts of `sigFour` sum to `2^64`, which differs from
the sum 0 of the empty map; as 64-bit integers both sums are 0, and `compareImages`
returns no error. -/
theorem compareImages_error_iff_counterexample :
    total sigFour ≠ total [] ∧ compareImages sigFour [] = (0, none) := by
  decide

/-- C4 (amended). Dimension mismatch rejection: for all signatures `A` and `B` whose sums
of counts are values of Go's `int` (between `-2^63` and `2^63 - 1`), `compareImages A B`
returns an error if and only if the sum of the counts of `A` differs from the sum of the
counts of `B`, and when it returns an error the returned score is 0. -/
theorem compareImages_error_iff (A B : Signature) (hA : FitsInt (total A))
    (hB : FitsInt (total B)) :
    ((compareImages A B).2 ≠ none ↔ total A ≠ total B) ∧
    ((compareImages A B).2 ≠ none → (compareImages A B).1 = 0) := by
  rw [compareImages_eq, wrapInt_of_fits _ hA, wrapInt_of_fits _ hB]
  by_cases ht : total A = total B
  · simp [ht]
  · simp [ht]

theorem compareImages_error_iff_witness :
    total sigRedRed ≠ total sigBlue3 ∧ (compareImages sigRedRed sigBlue3).2 ≠ none ∧
    (compareImages sigRedRed sigBlue3).1 = 0 :=
  ⟨by decide,
    (compareImages_error_iff sigRedRed sigBlue3 (by decide) (by decide)).1.mpr (by decide),
    (compareImages_error_iff sigRedRed sigBlue3 (by decide) (by decide)).2
      ((compareImages_error_iff sigRedRed sigBlue3 (by decide) (by decide)).1.mpr
        (by decide))⟩

/-- C5. Scorer symmetry: for all signatures `A` and `B`, `compareImages A B` and
`compareImages B A` return the same score (and the same error), although the loop only
visits the keys of its first argument.  (Equal totals need not be assumed: with different
totals both calls return the score 0 and the error.) -/
theorem compareImages_symm (A B : Signature) (hA : A.WF) (hB : B.WF) :
    compareImages A B = compareImages B A := by
  rw [compareImages_eq, compareImages_eq, overlap_sum_common A B hA,
    overlap_sum_common B A hB, Finset.inter_comm]
  have hs : ∑ k ∈ keySet B ∩ keySet A, min (countOf A k) (countOf B k) =
      ∑ k ∈ keySet B ∩ keySet A, min (countOf B k) (countOf A k) :=
    Finset.sum_congr rfl (fun k _ => min_comm _ _)
  by_cases ht : wrapInt (total A) = wrapInt (total B)
  · rw [if_neg (not_not.mpr ht), if_neg (not_not.mpr ht.symm), hs]
  · rw [if_pos ht, if_pos (fun h => ht h.symm)]

theorem compareImages_symm_witness :
    sigRedRed.WF ∧ sigRedBlue.WF ∧
    compareImages sigRedRed sigRedBlue = compareImages sigRedBlue sigRedRed :=
  ⟨by decide, by decide, compareImages_symm sigRedRed sigRedBlue (by decide) (by decide)⟩

/-- C6 (as stated, refuted). The counts of `sigHuge` are non-negative, yet the score of
`sigHuge` against itself is `-2^63`, below 0: the sum `2^63` of the minima wraps. -/
theorem compareImages_bound_counterexample :
    NonNeg sigHuge ∧ (compareImages sigHuge sigHuge).1 = -9223372036854775808 ∧
    ¬ (0 ≤ (compareImages sigHuge sigHuge).1) := by
  decide

/-- C6 (amended). Scorer bound: for all signatures `A` and `B` with non-negative counts
whose totals are values of Go's `int` (at most `2^63 - 1`), the score `compareImages A B`
returns is at least 0 and at most `min (total A) (total B)`. -/
theorem compareImages_bound (A B : Signature) (hnA : NonNeg A) (hnB : NonNeg B)
    (hA : total A ≤ 9223372036854775807) (hB : total B ≤ 9223372036854775807) :
    0 ≤ (compareImages A B).1 ∧ (compareImages A B).1 ≤ min (total A) (total B) := by
  rw [compareImages_eq_of_fits A B hnA hnB hA hB]
  by_cases ht : total A = total B
  · rw [if_neg (not_not.mpr ht)]
    refine ⟨overlap_sum_nonneg A B hnA hnB, ?_⟩
    rw [← ht, min_self]
    exact overlap_sum_le_total A B hnA
  · rw [if_pos ht]
    exact ⟨le_refl _, le_min (total_nonneg A hnA) (total_nonneg B hnB)⟩

theorem compareImages_bound_witness :
    NonNeg sigRedRed ∧ NonNeg sigRedBlue ∧
    0 ≤ (compareImages sigRedRed sigRedBlue).1 ∧
    (compareImages sigRedRed sigRedBlue).1 ≤ min (total sigRedRed) (total sigRedBlue) :=
  ⟨by decide, by decide,
    compareImages_bound sigRedRed sigRedBlue (by decide) (by decide) (by decide) (by decide)⟩

/-- C7 (as stated, refuted). The counts of `sigHuge` are non-negative and sum to `2^63`,
but `compareImages` returns the score `-2^63` for `sigHuge` against itself. -/
theorem compareImages_self_counterexample :
    sigHuge.WF ∧ NonNeg sigHuge ∧ total sigHuge = 9223372036854775808 ∧
    compareImages sigHuge sigHuge = (-9223372036854775808, none) ∧
    compareImages sigHuge sigHuge ≠ (total sigHuge, none) := by
  decide

/-- C7 (amended). Self-match: for every signature `A` whose sum of counts is a value of
Go's `int` (between `-2^63` and `2^63 - 1`), `compareImages A A` returns no error and a
score equal to the sum of all counts of `A`. -/
theorem compareImages_self (A : Signature) (hA : A.WF) (hfit : FitsInt (total A)) :
    compareImages A A = (total A, none) := by
  have hs : (A.map (overlap A)).sum = total A := by
    unfold total
    congr 1
    apply List.map_congr_left
    intro e he
    unfold overlap
    rw [mapGet_of_mem A hA e he]
    simp
  rw [compareImages_eq, if_neg (by simp), hs, wrapInt_of_fits _ hfit]

theorem compareImages_self_witness :
    sigRedBlue.WF ∧ FitsInt (total sigRedBlue) ∧
    compareImages sigRedBlue sigRedBlue = (total sigRedBlue, none) :=
  ⟨by decide, by decide, compareImages_self sigRedBlue (by decide) (by decide)⟩

/-! ## Quantisation -/

/-- C8. Quantisation: for every colour `c` whose R, G, B samples are 16-bit values, each
component of the key `newColorData c` is the sample divided by 256 with truncation and lies
in 0..255; the alpha sample plays no part, and a colour `d` whose samples fall in the same
256-wide buckets as those of `c` on every channel gets the same key. -/
theorem newColorData_quantises (c d : Color) (hr : c.r ≤ 65535) (hg : c.g ≤ 65535)
    (hb : c.b ≤ 65535) :
    ((newColorData c).R = c.r / 256 ∧ (newColorData c).G = c.g / 256 ∧
      (newColorData c).B = c.b / 256) ∧
    ((newColorData c).R ≤ 255 ∧ (newColorData c).G ≤ 255 ∧ (newColorData c).B ≤ 255) ∧
    (c.r / 256 = d.r / 256 → c.g / 256 = d.g / 256 → c.b / 256 = d.b / 256 →
      newColorData c = newColorData d) := by
  have hR : ∀ x : Color, (newColorData x).R = x.r / 256 := fun x => by
    simp [newColorData, Nat.shiftRight_eq_div_pow]
  have hG : ∀ x : Color, (newColorData x).G = x.g / 256 := fun x => by
    simp [newColorData, Nat.shiftRight_eq_div_pow]
  have hB : ∀ x : Color, (newColorData x).B = x.b / 256 := fun x => by
    simp [newColorData, Nat.shiftRight_eq_div_pow]
  refine ⟨⟨hR c, hG c, hB c⟩, ⟨?_, ?_, ?_⟩, ?_⟩
  · rw [hR]; omega
  · rw [hG]; omega
  · rw [hB]; omega
  · intro h1 h2 h3
    have e : ∀ x y : colorData, x.R = y.R → x.G = y.G → x.B = y.B → x = y := by
      intro x y h4 h5 h6
      cases x; cases y; simp_all
    exact e _ _ (by rw [hR, hR, h1]) (by rw [hG, hG, h2]) (by rw [hB, hB, h3])

theorem newColorData_quantises_witness :
    newColorData { r := 65535, g := 258, b := 0, a := 65535 } =
      newColorData { r := 65280, g := 511, b := 255, a := 0 } :=
  (newColorData_quantises { r := 65535, g := 258, b := 0, a := 65535 }
    { r := 65280, g := 511, b := 255, a := 0 } (by decide) (by decide) (by decide)).2.2
    (by decide) (by decide) (by decide)

/-! ## The matcher -/

theorem findClosestMatch_eq_runLoop (decodeImage : String → Except String Image) (im : Image)
    (flags : List String) :
    findClosestMatch decodeImage im flags = runLoop decodeImage im flags 0 "" := rfl

/-- Two images of the same dimensions never make `compareImages` fail. -/
theorem compareImages_getPixels_snd (im fl : Image)
    (h : getImageDimensions fl = getImageDimensions im) :
    (compareImages (getPixels im).1 (getPixels fl).1).2 = none := by
  have h1 : fl.Bounds.Dx = im.Bounds.Dx := congrArg Prod.fst h
  have h2 : fl.Bounds.Dy = im.Bounds.Dy := congrArg Prod.snd h
  rw [compareImages_eq, total_getPixels, total_getPixels, h1, h2]
  simp

/-- One turn of the loop of `findClosestMatch`, in terms of `candidateScore`. -/
theorem runLoop_cons (decodeImage : String → Except String Image) (im : Image)
    (f : String) (fs : List String) (b : Int) (n : String) :
    runLoop decodeImage im (f :: fs) b n =
      match candidateScore decodeImage im f with
      | none => runLoop decodeImage im fs b n
      | some r => if r > b then runLoop decodeImage im fs r f else runLoop decodeImage im fs b n := by
  unfold runLoop candidateScore
  rw [matchLoop]
  cases hd : decodeImage ("flags/" ++ f) with
  | error e => rfl
  | ok fl =>
    simp only
    by_cases hdim : getImageDimensions fl = getImageDimensions im
    · have h1 : (getImageDimensions fl).1 = (getImageDimensions im).1 := congrArg Prod.fst hdim
      have h2 : (getImageDimensions fl).2 = (getImageDimensions im).2 := congrArg Prod.snd hdim
      have h3 := compareImages_getPixels_snd im fl hdim
      have h4 : getPixels fl = ((getPixels fl).1, none) := rfl
      have h5 : compareImages (getPixels im).1 (getPixels fl).1 =
          ((compareImages (getPixels im).1 (getPixels fl).1).1, none) := by
        rw [← h3]
      rw [if_neg (by simp [h1, h2]), if_pos hdim, h4]
      simp only
      rw [h5]
    · have h1 : (getImageDimensions fl).1 ≠ (getImageDimensions im).1 ∨
          (getImageDimensions fl).2 ≠ (getImageDimensions im).2 := by
        by_contra hc
        push_neg at hc
        exact hdim (Prod.ext hc.1 hc.2)
      rw [if_pos h1, if_neg hdim]

theorem foldr_max_init (l : List Int) (r b : Int) :
    l.foldr max (max r b) = max r (l.foldr max b) := by
  induction l with
  | nil => simp
  | cons a t ih => rw [List.foldr_cons, List.foldr_cons, ih, max_left_comm]

theorem le_foldr_max (l : List Int) (b : Int) : b ≤ l.foldr max b := by
  induction l with
  | nil => simp
  | cons a t ih => exact le_trans ih (le_max_right _ _)

/-- The loop never fails, and its score is the maximum of the starting score and the
scores of the candidates it visits. -/
theorem runLoop_score (decodeImage : String → Except String Image) (im : Image)
    (fs : List String) (b : Int) (n : String) :
    (runLoop decodeImage im fs b n).2.1 =
        (fs.filterMap (candidateScore decodeImage im)).foldr max b ∧
      (runLoop decodeImage im fs b n).2.2 = none := by
  induction fs generalizing b n with
  | nil => exact ⟨rfl, rfl⟩
  | cons f t ih =>
    rw [runLoop_cons]
    cases hc : candidateScore decodeImage im f with
    | none =>
      simp only [List.filterMap_cons, hc]
      exact ih b n
    | some r =>
      simp only [List.filterMap_cons, hc, List.foldr_cons]
      by_cases hgt : r > b
      · rw [if_pos hgt]
        refine ⟨?_, (ih r f).2⟩
        rw [(ih r f).1, ← foldr_max_init, max_eq_left (le_of_lt hgt)]
      · rw [if_neg hgt]
        refine ⟨?_, (ih b n).2⟩
        rw [(ih b n).1]
        exact (max_eq_right (le_trans (not_lt.mp hgt) (le_foldr_max _ b))).symm

/-- Candidates that do not beat the current best leave the state of the loop unchanged. -/
theorem runLoop_of_le (decodeImage : String → Except String Image) (im : Image)
    (fs : List String) (b : Int) (n : String)
    (h : ∀ g ∈ fs, ∀ t, candidateScore decodeImage im g = some t → t ≤ b) :
    runLoop decodeImage im fs b n = (n, b, none) := by
  induction fs with
  | nil => rfl
  | cons f t ih =>
    have ht : ∀ g ∈ t, ∀ u, candidateScore decodeImage im g = some u → u ≤ b :=
      fun g hg u hu => h g (List.mem_cons_of_mem _ hg) u hu
    rw [runLoop_cons]
    cases hc : candidateScore decodeImage im f with
    | none => exact ih ht
    | some r =>
      have hr : r ≤ b := h f (List.mem_cons_self _ _) r hc
      simp only
      rw [if_neg (not_lt.mpr hr)]
      exact ih ht

/-- Candidates scoring below `s` leave the best score of the loop below `s`, and the loop
then goes on with the rest of the list. -/
theorem runLoop_append_of_lt (decodeImage : String → Except String Image) (im : Image)
    (pre rest : List String) (s b : Int) (n : String) (hb : b < s)
    (h : ∀ g ∈ pre, ∀ t, candidateScore decodeImage im g = some t → t < s) :
    ∃ b1 n1, b1 < s ∧
      runLoop decodeImage im (pre ++ rest) b n = runLoop decodeImage im rest b1 n1 := by
  induction pre generalizing b n with
  | nil => exact ⟨b, n, hb, rfl⟩
  | cons f t ih =>
    have ht : ∀ g ∈ t, ∀ u, candidateScore decodeImage im g = some u → u < s :=
      fun g hg u hu => h g (List.mem_cons_of_mem _ hg) u hu
    rw [List.cons_append, runLoop_cons]
    cases hc : candidateScore decodeImage im f with
    | none => exact ih b n hb ht
    | some r =>
      have hr : r < s := h f (List.mem_cons_self _ _) r hc
      simp only
      by_cases hgt : r > b
      · rw [if_pos hgt]
        exact ih r f hr ht
      · rw [if_neg hgt]
        exact ih b n hb ht

/-- C9. Tie-break: when the candidate `f` decodes, has the mystery's dimensions and scores
`s > 0`, every candidate before it in the list that decodes with the mystery's dimensions
scores less than `s`, and every such candidate after it scores at most `s` (so `s` is the
maximum score and `f` the earliest candidate attaining it), `findClosestMatch` returns the
name `f` with the score `s` and no error: a later candidate with an equal score does not
displace it. -/
theorem findClosestMatch_earliest (decodeImage : String → Except String Image) (im : Image)
    (pre post : List String) (f : String) (s : Int)
    (hf : candidateScore decodeImage im f = some s) (hpos : 0 < s)
    (hpre : ∀ g ∈ pre, ∀ t, candidateScore decodeImage im g = some t → t < s)
    (hpost : ∀ g ∈ post, ∀ t, candidateScore decodeImage im g = some t → t ≤ s) :
    findClosestMatch decodeImage im (pre ++ f :: post) = (f, s, none) := by
  rw [findClosestMatch_eq_runLoop]
  obtain ⟨b1, n1, hb1, heq⟩ :=
    runLoop_append_of_lt decodeImage im pre (f :: post) s 0 "" hpos hpre
  rw [heq, runLoop_cons, hf]
  simp only
  rw [if_pos hb1]
  exact runLoop_of_le decodeImage im post s f hpost

/-- C10. For every mystery image and candidate list, the score `findClosestMatch` returns
is the maximum of 0 and the `compareImages` scores (mystery signature against candidate
signature) of all candidates that decode and have the mystery's width and height; the
error is nil. -/
theorem findClosestMatch_score (decodeImage : String → Except String Image) (im : Image)
    (flags : List String) :
    (findClosestMatch decodeImage im flags).2.1 =
        (flags.filterMap (candidateScore decodeImage im)).foldr max 0 ∧
      (findClosestMatch decodeImage im flags).2.2 = none := by
  rw [findClosestMatch_eq_runLoop]
  exact runLoop_score decodeImage im flags 0 ""

theorem findClosestMatch_earliest_witness :
    findClosestMatch sampleFiles redRed (["a.png", "e.png"] ++ "b.png" :: ["c.png", "d.png"]) =
      ("b.png", 2, none) :=
  findClosestMatch_earliest sampleFiles redRed ["a.png", "e.png"] ["c.png", "d.png"] "b.png" 2
    (by decide) (by decide)
    (by
      intro g hg t ht
      simp only [List.mem_cons, List.mem_singleton, List.not_mem_nil, or_false] at hg
      rcases hg with rfl | rfl
      · have h1 : candidateScore sampleFiles redRed "a.png" = some 1 := by decide
        rw [h1] at ht
        cases ht
        decide
      · have h1 : candidateScore sampleFiles redRed "e.png" = none := by decide
        rw [h1] at ht
        cases ht)
    (by
      intro g hg t ht
      simp only [List.mem_cons, List.mem_singleton, List.not_mem_nil, or_false] at hg
      rcases hg with rfl | rfl
      · have h1 : candidateScore sampleFiles redRed "c.png" = none := by decide
        rw [h1] at ht
        cases ht
      · have h1 : candidateScore sampleFiles redRed "d.png" = some 2 := by decide
        rw [h1] at ht
        cases ht
        decide)

/-! ## The matcher: further properties -/

theorem candidateScore_ok (decodeImage : String → Except String Image) (im fl : Image)
    (f : String) (hd : decodeImage ("flags/" ++ f) = .ok fl)
    (hdim : getImageDimensions fl = getImageDimensions im) :
    candidateScore decodeImage im f =
      some (compareImages (getPixels im).1 (getPixels fl).1).1 := by
  unfold candidateScore
  rw [hd]
  simp only
  rw [if_pos hdim]

theorem candidateScore_some (decodeImage : String → Except String Image) (im : Image)
    (f : String) (t : Int) (h : candidateScore decodeImage im f = some t) :
    ∃ fl, decodeImage ("flags/" ++ f) = .ok fl ∧
      getImageDimensions fl = getImageDimensions im ∧
      t = (compareImages (getPixels im).1 (getPixels fl).1).1 := by
  unfold candidateScore at h
  cases hd : decodeImage ("flags/" ++ f) with
  | error e => rw [hd] at h; cases h
  | ok fl =>
    rw [hd] at h
    simp only at h
    by_cases hdim : getImageDimensions fl = getImageDimensions im
    · rw [if_pos hdim] at h
      exact ⟨fl, rfl, hdim, (Option.some.inj h).symm⟩
    · rw [if_neg hdim] at h
      cases h

theorem candidateScore_of_not_decodes (decodeImage : String → Except String Image) (im : Image)
    (f : String) (h : decodes decodeImage f = false) :
    candidateScore decodeImage im f = none := by
  unfold decodes at h
  unfold candidateScore
  cases hd : decodeImage ("flags/" ++ f) with
  | error e => rfl
  | ok fl => rw [hd] at h; cases h

/-- The earliest candidate attaining the maximum, positive or above the starting score,
is what the loop returns. -/
theorem runLoop_earliest (decodeImage : String → Except String Image) (im : Image)
    (pre post : List String) (f : String) (s : Int)
    (hf : candidateScore decodeImage im f = some s) (hpos : 0 < s)
    (hpre : ∀ g ∈ pre, ∀ t, candidateScore decodeImage im g = some t → t < s)
    (hpost : ∀ g ∈ post, ∀ t, candidateScore decodeImage im g = some t → t ≤ s) :
    runLoop decodeImage im (pre ++ f :: post) 0 "" = (f, s, none) := by
  obtain ⟨b1, n1, hb1, heq⟩ :=
    runLoop_append_of_lt decodeImage im pre (f :: post) s 0 "" hpos hpre
  rw [heq, runLoop_cons, hf]
  simp only
  rw [if_pos hb1]
  exact runLoop_of_le decodeImage im post s f hpost

/-- The loop returns either its starting state, or a candidate of the list together with
its score, which then exceeds the starting score. -/
theorem runLoop_result (decodeImage : String → Except String Image) (im : Image)
    (fs : List String) (b : Int) (n : String) :
    runLoop decodeImage im fs b n = (n, b, none) ∨
      ∃ f s, f ∈ fs ∧ candidateScore decodeImage im f = some s ∧ b < s ∧
        runLoop decodeImage im fs b n = (f, s, none) := by
  induction fs generalizing b n with
  | nil => exact Or.inl rfl
  | cons f t ih =>
    rw [runLoop_cons]
    cases hc : candidateScore decodeImage im f with
    | none =>
      simp only
      rcases ih b n with h | ⟨g, s, hg, hs, hlt, hr⟩
      · exact Or.inl h
      · exact Or.inr ⟨g, s, List.mem_cons_of_mem _ hg, hs, hlt, hr⟩
    | some r =>
      simp only
      by_cases hgt : r > b
      · rw [if_pos hgt]
        rcases ih r f with h | ⟨g, s, hg, hs, hlt, hr⟩
        · exact Or.inr ⟨f, r, List.mem_cons_self _ _, hc, hgt, h⟩
        · exact Or.inr ⟨g, s, List.mem_cons_of_mem _ hg, hs, lt_trans hgt hlt, hr⟩
      · rw [if_neg hgt]
        rcases ih b n with h | ⟨g, s, hg, hs, hlt, hr⟩
        · exact Or.inl h
        · exact Or.inr ⟨g, s, List.mem_cons_of_mem _ hg, hs, hlt, hr⟩

theorem le_foldr_max_of_mem (l : List Int) (b t : Int) (h : t ∈ l) : t ≤ l.foldr max b := by
  induction l with
  | nil => cases h
  | cons a u ih =>
    rw [List.foldr_cons]
    rcases List.mem_cons.mp h with rfl | h2
    · exact le_max_left _ _
    · exact le_trans (ih h2) (le_max_right _ _)

/-- C11. No-match: when no candidate both decodes and has the mystery's width and height
(in particular for the empty list, and for a 2x2 mystery with a single 3x3 candidate),
`findClosestMatch` returns the empty name, the score 0 and no error. -/
theorem findClosestMatch_no_match (decodeImage : String → Except String Image) (im : Image)
    (flags : List String)
    (h : ∀ f ∈ flags, ∀ fl, decodeImage ("flags/" ++ f) = .ok fl →
      getImageDimensions fl ≠ getImageDimensions im) :
    findClosestMatch decodeImage im flags = ("", 0, none) := by
  rw [findClosestMatch_eq_runLoop]
  apply runLoop_of_le
  intro g hg t ht
  obtain ⟨fl, hd, hdim, _⟩ := candidateScore_some decodeImage im g t ht
  exact absurd hdim (h g hg fl hd)

theorem findClosestMatch_no_match_witness :
    findClosestMatch (singleFile "flag.png" red3x3) red2x2 ["flag.png"] = ("", 0, none) ∧
    findClosestMatch (singleFile "flag.png" red3x3) red2x2 [] = ("", 0, none) :=
  ⟨findClosestMatch_no_match (singleFile "flag.png" red3x3) red2x2 ["flag.png"] (by
      intro f hf fl hd
      simp only [List.mem_singleton] at hf
      subst hf
      have h0 : singleFile "flag.png" red3x3 ("flags/" ++ "flag.png") = .ok red3x3 := rfl
      rw [h0] at hd
      cases hd
      decide),
    findClosestMatch_no_match (singleFile "flag.png" red3x3) red2x2 [] (by
      intro f hf
      cases hf)⟩

/-- Every count of the map `getPixels` returns is positive. -/
theorem getPixels_pos (im : Image) : ∀ e ∈ (getPixels im).1, 0 < e.2 := by
  intro e he
  have h1 := mapGet_of_mem _ (WF_getPixels im) e he
  rw [getPixels_eq_foldl, mapGet_foldl_bump] at h1
  split at h1
  · simp [mapGet] at h1
  · rename_i hne
    simp only [countOf, mapGet, Option.getD_none, zero_add, Option.some.injEq] at h1
    rw [← h1]
    exact_mod_cast Nat.pos_of_ne_zero hne

theorem NonNeg_getPixels (im : Image) : NonNeg (getPixels im).1 :=
  fun e he => le_of_lt (getPixels_pos im e he)

/-- No count of the map `getPixels` returns exceeds the number of pixels. -/
theorem getPixels_le_total (im : Image) :
    ∀ e ∈ (getPixels im).1, e.2 ≤ total (getPixels im).1 := by
  intro e he
  apply List.single_le_sum
  · intro x hx
    obtain ⟨e2, he2, rfl⟩ := List.mem_map.mp hx
    exact NonNeg_getPixels im e2 he2
  · exact List.mem_map_of_mem Prod.snd he

/-- The number of pixels of an image is a value of Go's `int`, and so is every count
`getPixels` stores: its increments do not wrap. -/
theorem fits_total_getPixels (im : Image) :
    total (getPixels im).1 ≤ 9223372036854775807 := by
  rw [total_getPixels]
  have h := im.fits
  simp only [Image.Bounds]
  generalize im.Rect.Dx.toNat * im.Rect.Dy.toNat = n at h
  omega

/-- On the signatures of two images of the same dimensions, `compareImages` returns no
error and the sum of the overlaps, none of its additions wrapping. -/
theorem compareImages_getPixels (im fl : Image)
    (hdim : getImageDimensions fl = getImageDimensions im) :
    compareImages (getPixels im).1 (getPixels fl).1 =
      (((getPixels im).1.map (overlap (getPixels fl).1)).sum, none) := by
  have h1 : fl.Bounds.Dx = im.Bounds.Dx := congrArg Prod.fst hdim
  have h2 : fl.Bounds.Dy = im.Bounds.Dy := congrArg Prod.snd hdim
  have ht : total (getPixels im).1 = total (getPixels fl).1 := by
    rw [total_getPixels, total_getPixels, h1, h2]
  rw [compareImages_eq_of_fits _ _ (NonNeg_getPixels im) (NonNeg_getPixels fl)
    (fits_total_getPixels im) (fits_total_getPixels fl), if_neg (not_not.mpr ht)]

theorem candidateScore_nonneg (decodeImage : String → Except String Image) (im : Image)
    (f : String) (t : Int) (h : candidateScore decodeImage im f = some t) : 0 ≤ t := by
  obtain ⟨fl, _, hdim, rfl⟩ := candidateScore_some decodeImage im f t h
  rw [compareImages_getPixels im fl hdim]
  exact overlap_sum_nonneg _ _ (NonNeg_getPixels im) (NonNeg_getPixels fl)

/-- C12. End-to-end example: the mystery image is 2x1 with pixels red, red; the candidates,
in any order, are `a` (2x1, red, blue), `b` (2x1, red, red) and `c` (a 3x1 image).
`compareImages` gives `a` the score 1 and `b` the score 2, `c` is skipped, and
`findClosestMatch` returns `(b, 2)` with no error. -/
theorem findClosestMatch_end_to_end (decodeImage : String → Except String Image)
    (a b c : String) (cImg : Image) (flags : List String)
    (ha : decodeImage ("flags/" ++ a) = .ok redBlue)
    (hb : decodeImage ("flags/" ++ b) = .ok redRed)
    (hc : decodeImage ("flags/" ++ c) = .ok cImg)
    (hcdim : getImageDimensions cImg = (3, 1))
    (hp : flags.Perm [a, b, c]) :
    compareImages (getPixels redRed).1 (getPixels redBlue).1 = (1, none) ∧
    compareImages (getPixels redRed).1 (getPixels redRed).1 = (2, none) ∧
    candidateScore decodeImage redRed c = none ∧
    findClosestMatch decodeImage redRed flags = (b, 2, none) := by
  have sa : candidateScore decodeImage redRed a = some 1 := by
    rw [candidateScore_ok decodeImage redRed redBlue a ha (by decide)]
    decide
  have sb : candidateScore decodeImage redRed b = some 2 := by
    rw [candidateScore_ok decodeImage redRed redRed b hb (by decide)]
    decide
  have sc : candidateScore decodeImage redRed c = none := by
    unfold candidateScore
    rw [hc]
    simp only
    rw [if_neg]
    rw [hcdim]
    decide
  refine ⟨by decide, by decide, sc, ?_⟩
  have hmem : ∀ g ∈ flags, g = a ∨ g = b ∨ g = c := by
    intro g hg
    simpa using hp.subset hg
  have hbmem : b ∈ flags := hp.symm.subset (by simp)
  obtain ⟨pre, post, hsplit, hnot⟩ := List.eq_append_cons_of_mem hbmem
  rw [findClosestMatch_eq_runLoop, hsplit]
  apply runLoop_earliest decodeImage redRed pre post b 2 sb (by decide)
  · intro g hg t ht
    have hgf : g ∈ flags := by rw [hsplit]; exact List.mem_append_left _ hg
    rcases hmem g hgf with rfl | rfl | rfl
    · rw [sa] at ht; cases ht; decide
    · exact absurd hg hnot
    · rw [sc] at ht; cases ht
  · intro g hg t ht
    have hgf : g ∈ flags := by
      rw [hsplit]; exact List.mem_append_right _ (List.mem_cons_of_mem _ hg)
    rcases hmem g hgf with rfl | rfl | rfl
    · rw [sa] at ht; cases ht; decide
    · rw [sb] at ht; cases ht; decide
    · rw [sc] at ht; cases ht

theorem findClosestMatch_end_to_end_witness :
    findClosestMatch sampleFiles redRed ["c.png", "a.png", "b.png"] = ("b.png", 2, none) :=
  (findClosestMatch_end_to_end sampleFiles "a.png" "b.png" "c.png" red3
    ["c.png", "a.png", "b.png"] rfl rfl rfl (by decide) (by decide)).2.2.2

/-- C13 (as stated, refuted). The mystery image is 2x1 blue, blue and the only candidate
`b.png` is 2x1 red, red: it decodes and has the mystery's dimensions, yet it scores 0 and
`findClosestMatch` returns the empty name without error. -/
theorem emptyNameClaim_counterexample : ¬ emptyNameClaim sampleFiles blueBlue ["b.png"] := by
  intro h
  have hd : sampleFiles ("flags/" ++ "b.png") = .ok redRed := rfl
  rcases h (by decide) (by decide) with h1 | h2 | h3
  · cases h1
  · exact h2 "b.png" (List.mem_singleton.mpr rfl) redRed hd (by decide)
  · exact h3 "b.png" (List.mem_singleton.mpr rfl) redRed (by decide) hd

/-- C13 (amended). If `findClosestMatch` returns the empty name (no file being named by
the empty string), then every candidate either does not decode to an image of the mystery's
dimensions, or scores 0 against the mystery: no acceptable candidate, or only candidates
without any pixel in common with the mystery. -/
theorem findClosestMatch_empty_name (decodeImage : String → Except String Image) (im : Image)
    (flags : List String) (hnames : "" ∉ flags)
    (h : (findClosestMatch decodeImage im flags).1 = "") :
    ∀ f ∈ flags, candidateScore decodeImage im f = none ∨
      candidateScore decodeImage im f = some 0 := by
  rw [findClosestMatch_eq_runLoop] at h
  have hscore : (runLoop decodeImage im flags 0 "").2.1 = 0 := by
    rcases runLoop_result decodeImage im flags 0 "" with h1 | ⟨g, s, hg, _, _, hr⟩
    · rw [h1]
    · rw [hr] at h
      simp only at h
      rw [h] at hg
      exact absurd hg hnames
  rw [(runLoop_score decodeImage im flags 0 "").1] at hscore
  intro f hf
  cases hc : candidateScore decodeImage im f with
  | none => exact Or.inl rfl
  | some t =>
    right
    have h1 : t ∈ flags.filterMap (candidateScore decodeImage im) :=
      List.mem_filterMap.mpr ⟨f, hf, hc⟩
    have h2 := le_foldr_max_of_mem _ 0 t h1
    have h3 := candidateScore_nonneg decodeImage im f t hc
    rw [hscore] at h2
    rw [le_antisymm h2 h3]

theorem findClosestMatch_empty_name_witness :
    candidateScore sampleFiles blueBlue "b.png" = none ∨
      candidateScore sampleFiles blueBlue "b.png" = some 0 :=
  findClosestMatch_empty_name sampleFiles blueBlue ["b.png", "c.png"] (by decide) (by decide)
    "b.png" (by decide)

theorem runLoop_filter_decodes (decodeImage : String → Except String Image) (im : Image)
    (fs : List String) (b : Int) (n : String) :
    runLoop decodeImage im fs b n =
      runLoop decodeImage im (fs.filter (decodes decodeImage)) b n := by
  induction fs generalizing b n with
  | nil => rfl
  | cons f t ih =>
    cases hd : decodes decodeImage f with
    | false =>
      rw [List.filter_cons_of_neg (by simp [hd]), runLoop_cons,
        candidateScore_of_not_decodes decodeImage im f hd]
      exact ih b n
    | true =>
      rw [List.filter_cons_of_pos hd, runLoop_cons, runLoop_cons]
      cases candidateScore decodeImage im f with
      | none => exact ih b n
      | some r =>
        simp only
        rw [ih r f, ih b n]

/-- C14. Decode-failure isolation: `findClosestMatch` never returns an error, whatever
candidates fail to decode, and its result (name, score, error) is the result it gives on
the candidate list with all candidates that fail to decode removed. -/
theorem findClosestMatch_skips_failures (decodeImage : String → Except String Image)
    (im : Image) (flags : List String) :
    (findClosestMatch decodeImage im flags).2.2 = none ∧
    findClosestMatch decodeImage im flags =
      findClosestMatch decodeImage im (flags.filter (decodes decodeImage)) := by
  rw [findClosestMatch_eq_runLoop, findClosestMatch_eq_runLoop]
  exact ⟨(runLoop_score decodeImage im flags 0 "").2,
    runLoop_filter_decodes decodeImage im flags 0 ""⟩

/-- C15. The dimension-mismatch error is unreachable inside the matcher: every candidate
that decodes with the mystery's width and height has a signature of the same total as the
mystery's, so the call of `compareImages` on it returns no error, and `findClosestMatch`
always returns a nil error. -/
theorem findClosestMatch_no_error (decodeImage : String → Except String Image) (im : Image)
    (flags : List String) :
    (∀ f ∈ flags, ∀ fl, decodeImage ("flags/" ++ f) = .ok fl →
      getImageDimensions fl = getImageDimensions im →
        total (getPixels im).1 = total (getPixels fl).1 ∧
        (compareImages (getPixels im).1 (getPixels fl).1).2 = none) ∧
    (findClosestMatch decodeImage im flags).2.2 = none := by
  refine ⟨?_, ?_⟩
  · intro f _ fl _ hdim
    have h1 : fl.Bounds.Dx = im.Bounds.Dx := congrArg Prod.fst hdim
    have h2 : fl.Bounds.Dy = im.Bounds.Dy := congrArg Prod.snd hdim
    refine ⟨?_, compareImages_getPixels_snd im fl hdim⟩
    rw [total_getPixels, total_getPixels, h1, h2]
  · rw [findClosestMatch_eq_runLoop]
    exact (runLoop_score decodeImage im flags 0 "").2

theorem findClosestMatch_no_error_witness :
    total (getPixels redRed).1 = total (getPixels redBlue).1 ∧
    (compareImages (getPixels redRed).1 (getPixels redBlue).1).2 = none :=
  (findClosestMatch_no_error sampleFiles redRed ["a.png", "c.png"]).1 "a.png" (by decide)
    redBlue rfl (by decide)

theorem foldr_max_perm (l1 l2 : List Int) (b : Int) (hp : l1.Perm l2) :
    l1.foldr max b = l2.foldr max b :=
  List.Perm.foldr_eq' hp (fun x _ y _ z => max_left_comm y x z) b

/-- A candidate of positive score that every candidate of another name scores below is
what the loop returns, wherever it stands in the list. -/
theorem runLoop_unique_max (decodeImage : String → Except String Image) (im : Image)
    (fs : List String) (f : String) (s : Int) (hmem : f ∈ fs)
    (hf : candidateScore decodeImage im f = some s) (hpos : 0 < s)
    (hothers : ∀ g ∈ fs, g ≠ f → ∀ t, candidateScore decodeImage im g = some t → t < s) :
    runLoop decodeImage im fs 0 "" = (f, s, none) := by
  obtain ⟨pre, post, hsplit, hnot⟩ := List.eq_append_cons_of_mem hmem
  rw [hsplit]
  apply runLoop_earliest decodeImage im pre post f s hf hpos
  · intro g hg t ht
    have hgf : g ∈ fs := by rw [hsplit]; exact List.mem_append_left _ hg
    have hne : g ≠ f := fun h => hnot (h ▸ hg)
    exact hothers g hgf hne t ht
  · intro g hg t ht
    have hgf : g ∈ fs := by
      rw [hsplit]; exact List.mem_append_right _ (List.mem_cons_of_mem _ hg)
    by_cases hne : g = f
    · rw [hne, hf] at ht
      cases ht
      exact le_refl _
    · exact le_of_lt (hothers g hgf hne t ht)

/-- C16. Order independence: on a permutation of the candidate list `findClosestMatch`
returns the same score; and when one candidate has a positive score that every candidate
of another name scores below (the maximum is attained without tie), it returns the same
name as well, so the same result. -/
theorem findClosestMatch_perm (decodeImage : String → Except String Image) (im : Image)
    (flags1 flags2 : List String) (hp : flags1.Perm flags2) :
    (findClosestMatch decodeImage im flags1).2.1 =
      (findClosestMatch decodeImage im flags2).2.1 ∧
    (∀ f s, f ∈ flags1 → candidateScore decodeImage im f = some s → 0 < s →
      (∀ g ∈ flags1, g ≠ f → ∀ t, candidateScore decodeImage im g = some t → t < s) →
      findClosestMatch decodeImage im flags1 = findClosestMatch decodeImage im flags2) := by
  rw [findClosestMatch_eq_runLoop, findClosestMatch_eq_runLoop]
  refine ⟨?_, ?_⟩
  · rw [(runLoop_score decodeImage im flags1 0 "").1,
      (runLoop_score decodeImage im flags2 0 "").1]
    exact foldr_max_perm _ _ 0 (hp.filterMap _)
  · intro f s hmem hf hpos hothers
    rw [runLoop_unique_max decodeImage im flags1 f s hmem hf hpos hothers,
      runLoop_unique_max decodeImage im flags2 f s (hp.subset hmem) hf hpos
        (fun g hg => hothers g (hp.symm.subset hg))]

theorem findClosestMatch_perm_witness :
    (findClosestMatch sampleFiles redRed ["a.png", "b.png", "c.png"]).2.1 =
      (findClosestMatch sampleFiles redRed ["c.png", "b.png", "a.png"]).2.1 ∧
    findClosestMatch sampleFiles redRed ["a.png", "b.png", "c.png"] =
      findClosestMatch sampleFiles redRed ["c.png", "b.png", "a.png"] :=
  ⟨(findClosestMatch_perm sampleFiles redRed ["a.png", "b.png", "c.png"]
      ["c.png", "b.png", "a.png"] (by decide)).1,
    (findClosestMatch_perm sampleFiles redRed ["a.png", "b.png", "c.png"]
      ["c.png", "b.png", "a.png"] (by decide)).2 "b.png" 2 (by decide) (by decide) (by decide)
      (by
        intro g hg hne t ht
        simp only [List.mem_cons, List.mem_singleton, List.not_mem_nil, or_false] at hg
        rcases hg with rfl | rfl | rfl
        · have h1 : candidateScore sampleFiles redRed "a.png" = some 1 := by decide
          rw [h1] at ht
          cases ht
          decide
        · exact absurd rfl hne
        · have h1 : candidateScore sampleFiles redRed "c.png" = none := by decide
          rw [h1] at ht
          cases ht)⟩

/-- C18. A zero score never wins: when every candidate that decodes with the mystery's
dimensions scores exactly 0 against the mystery, `findClosestMatch` returns the empty
name, the score 0 and no error, which is its result on the empty candidate list; and
whenever the name it returns is not empty, the score it returns is strictly positive. -/
theorem findClosestMatch_zero_never_wins (decodeImage : String → Except String Image)
    (im : Image) (flags : List String) :
    ((∀ f ∈ flags, ∀ t, candidateScore decodeImage im f = some t → t = 0) →
      findClosestMatch decodeImage im flags = ("", 0, none) ∧
      findClosestMatch decodeImage im flags = findClosestMatch decodeImage im []) ∧
    ((findClosestMatch decodeImage im flags).1 ≠ "" →
      0 < (findClosestMatch decodeImage im flags).2.1) := by
  rw [findClosestMatch_eq_runLoop, findClosestMatch_eq_runLoop]
  refine ⟨?_, ?_⟩
  · intro h
    have h1 : runLoop decodeImage im flags 0 "" = ("", 0, none) :=
      runLoop_of_le decodeImage im flags 0 "" (fun g hg t ht => le_of_eq (h g hg t ht))
    exact ⟨h1, h1⟩
  · intro hne
    rcases runLoop_result decodeImage im flags 0 "" with h1 | ⟨g, s, _, _, hlt, hr⟩
    · rw [h1] at hne
      exact absurd rfl hne
    · rw [hr]
      exact hlt

theorem findClosestMatch_zero_never_wins_witness :
    findClosestMatch sampleFiles blueBlue ["b.png", "d.png"] = ("", 0, none) ∧
    0 < (findClosestMatch sampleFiles redRed ["a.png"]).2.1 :=
  ⟨((findClosestMatch_zero_never_wins sampleFiles blueBlue ["b.png", "d.png"]).1 (by
      intro f hf t ht
      simp only [List.mem_cons, List.mem_singleton, List.not_mem_nil, or_false] at hf
      rcases hf with rfl | rfl
      · have h1 : candidateScore sampleFiles blueBlue "b.png" = some 0 := by decide
        rw [h1] at ht
        cases ht
        rfl
      · have h1 : candidateScore sampleFiles blueBlue "d.png" = some 0 := by decide
        rw [h1] at ht
        cases ht
        rfl)).1,
    (findClosestMatch_zero_never_wins sampleFiles redRed ["a.png"]).2 (by decide)⟩

/-! ## The equality case of the scorer -/

theorem total_eq_sum_keySet (m : Signature) (h : m.WF) :
    total m = ∑ k ∈ keySet m, countOf m k := by
  rw [keySet, List.sum_toFinset _ h, List.map_map, total]
  congr 1
  apply List.map_congr_left
  intro e he
  exact (countOf_of_mem m h e he).symm

/-- When the first loop of `compareImages` reaches the total of `A`, every key of `A`
counts at least as much in `B`. -/
theorem countOf_le_of_overlap_sum (A B : Signature) (hA : A.WF) (hnA : NonNeg A)
    (h : (A.map (overlap B)).sum = total A) :
    ∀ k ∈ keySet A, countOf A k ≤ countOf B k := by
  rw [overlap_sum_keys A B hA hnA, intersection, total_eq_sum_keySet A hA] at h
  have h2 := (Finset.sum_eq_sum_iff_of_le (fun k _ => min_le_left (countOf A k) (countOf B k))).mp h
  intro k hk
  exact min_eq_left_iff.mp (h2 k hk)

/-- With equal totals, this forces the same count for every key. -/
theorem countOf_eq_of_overlap_sum (A B : Signature) (hA : A.WF) (hB : B.WF) (hnA : NonNeg A)
    (hnB : NonNeg B) (ht : total A = total B) (h : (A.map (overlap B)).sum = total A) :
    ∀ k, countOf A k = countOf B k := by
  have hle := countOf_le_of_overlap_sum A B hA hnA h
  have hle2 : ∀ k ∈ keySet A ∪ keySet B, countOf A k ≤ countOf B k := by
    intro k _
    by_cases hk : k ∈ keySet A
    · exact hle k hk
    · rw [countOf_of_not_mem A k hk]
      exact countOf_nonneg B hnB k
  have hsA : ∑ k ∈ keySet A ∪ keySet B, countOf A k = total A := by
    rw [total_eq_sum_keySet A hA]
    exact (Finset.sum_subset Finset.subset_union_left
      (fun k _ hk => countOf_of_not_mem A k hk)).symm
  have hsB : ∑ k ∈ keySet A ∪ keySet B, countOf B k = total B := by
    rw [total_eq_sum_keySet B hB]
    exact (Finset.sum_subset Finset.subset_union_right
      (fun k _ hk => countOf_of_not_mem B k hk)).symm
  have h3 := (Finset.sum_eq_sum_iff_of_le hle2).mp (by rw [hsA, hsB, ht])
  intro k
  by_cases hk : k ∈ keySet A ∪ keySet B
  · exact h3 k hk
  · rw [Finset.mem_union, not_or] at hk
    rw [countOf_of_not_mem A k hk.1, countOf_of_not_mem B k hk.2]

/-- C17. Equality case of the scorer bound: for signatures `A` and `B` with non-negative
counts and equal totals, `compareImages A B` returns the score `min (total A) (total B)`
only when every key of `A` has a count in `B` at least as large as its count in `A`, and
then `A` and `B` have the same count for every key. -/
theorem compareImages_eq_min_only_if (A B : Signature) (hA : A.WF) (hB : B.WF)
    (hnA : NonNeg A) (hnB : NonNeg B) (ht : total A = total B)
    (h : (compareImages A B).1 = min (total A) (total B)) :
    (∀ k ∈ keySet A, countOf A k ≤ countOf B k) ∧ ∀ k, countOf A k = countOf B k := by
  rw [compareImages_eq, ← ht, if_neg (by simp), min_self] at h
  simp only at h
  have h3 := overlap_sum_nonneg A B hnA hnB
  have h4 := overlap_sum_le_total A B hnA
  have hS : (A.map (overlap B)).sum = total A := by
    unfold wrapInt at h
    omega
  exact ⟨countOf_le_of_overlap_sum A B hA hnA hS,
    countOf_eq_of_overlap_sum A B hA hB hnA hnB ht hS⟩

theorem compareImages_eq_min_only_if_witness :
    (∀ k ∈ keySet sigRedBlue, countOf sigRedBlue k ≤ countOf sigBlueRed k) ∧
    ∀ k, countOf sigRedBlue k = countOf sigBlueRed k :=
  compareImages_eq_min_only_if sigRedBlue sigBlueRed (by decide) (by decide) (by decide)
    (by decide) (by decide) (by decide)

/-! ## Exact matches -/

theorem overlap_sum_of_SigEq (A B : Signature) (hA : A.WF) (h : SigEq B A) :
    (A.map (overlap B)).sum = total A := by
  unfold total
  congr 1
  apply List.map_congr_left
  intro e he
  unfold overlap
  rw [h e.1, mapGet_of_mem A hA e he]
  simp

theorem SigEq_of_countOf_eq (A B : Signature) (hpA : ∀ e ∈ A, 0 < e.2)
    (hpB : ∀ e ∈ B, 0 < e.2) (h : ∀ k, countOf A k = countOf B k) : SigEq A B := by
  intro k
  have hk := h k
  unfold countOf at hk
  cases hAk : mapGet A k with
  | none =>
    cases hBk : mapGet B k with
    | none => rfl
    | some v =>
      rw [hAk, hBk] at hk
      have hv := hpB (k, v) (mem_of_mapGet B k v hBk)
      simp only [Option.getD_none, Option.getD_some] at hk hv
      omega
  | some u =>
    have hu := hpA (k, u) (mem_of_mapGet A k u hAk)
    cases hBk : mapGet B k with
    | none =>
      rw [hAk, hBk] at hk
      simp only [Option.getD_none, Option.getD_some] at hk hu
      omega
    | some v =>
      rw [hAk, hBk] at hk
      simp only [Option.getD_some] at hk
      rw [hk]

/-- The score of a candidate of the mystery's dimensions: at most the total of the mystery's
signature, and equal to it exactly when the two signatures are equal as maps. -/
theorem score_getPixels (im fl : Image) (hdim : getImageDimensions fl = getImageDimensions im) :
    (compareImages (getPixels im).1 (getPixels fl).1).1 ≤ total (getPixels im).1 ∧
    ((compareImages (getPixels im).1 (getPixels fl).1).1 = total (getPixels im).1 ↔
      SigEq (getPixels fl).1 (getPixels im).1) := by
  have h1 : fl.Bounds.Dx = im.Bounds.Dx := congrArg Prod.fst hdim
  have h2 : fl.Bounds.Dy = im.Bounds.Dy := congrArg Prod.snd hdim
  have ht : total (getPixels im).1 = total (getPixels fl).1 := by
    rw [total_getPixels, total_getPixels, h1, h2]
  rw [compareImages_getPixels im fl hdim]
  refine ⟨overlap_sum_le_total _ _ (NonNeg_getPixels im), ?_, ?_⟩
  · intro h
    have hc := countOf_eq_of_overlap_sum _ _ (WF_getPixels im) (WF_getPixels fl)
      (NonNeg_getPixels im) (NonNeg_getPixels fl) ht h
    exact SigEq_of_countOf_eq _ _ (getPixels_pos fl) (getPixels_pos im) (fun k => (hc k).symm)
  · intro h
    exact overlap_sum_of_SigEq _ _ (WF_getPixels im) h

/-- C19. An exact match is always found: for a mystery image of width `W >= 0` with
`W * H > 0`, when the candidate `f` decodes with the mystery's dimensions and a signature
equal to the mystery's, and no candidate before it in the list does, `findClosestMatch`
returns the name `f`, the score `W * H` and no error; the file it names has the mystery's
signature, so no candidate with a different signature is returned. -/
theorem findClosestMatch_exact_match (decodeImage : String → Except String Image)
    (im fl : Image) (pre post : List String) (f : String)
    (hW : 0 ≤ (getImageDimensions im).1)
    (hpos : 0 < (getImageDimensions im).1 * (getImageDimensions im).2)
    (hd : decodeImage ("flags/" ++ f) = .ok fl)
    (hdim : getImageDimensions fl = getImageDimensions im)
    (hsig : SigEq (getPixels fl).1 (getPixels im).1)
    (hpre : ∀ g ∈ pre, ∀ gl, decodeImage ("flags/" ++ g) = .ok gl →
      getImageDimensions gl = getImageDimensions im →
      ¬ SigEq (getPixels gl).1 (getPixels im).1) :
    findClosestMatch decodeImage im (pre ++ f :: post) =
      (f, (getImageDimensions im).1 * (getImageDimensions im).2, none) ∧
    ∀ gl, decodeImage ("flags/" ++ (findClosestMatch decodeImage im (pre ++ f :: post)).1) =
      .ok gl → SigEq (getPixels gl).1 (getPixels im).1 := by
  have hH : 0 ≤ (getImageDimensions im).2 := by
    by_contra hneg
    have := mul_nonpos_of_nonneg_of_nonpos hW (le_of_lt (not_le.mp hneg))
    omega
  have htot : total (getPixels im).1 =
      (getImageDimensions im).1 * (getImageDimensions im).2 := by
    rw [total_getPixels]
    simp only [getImageDimensions] at *
    push_cast
    rw [Int.toNat_of_nonneg hW, Int.toNat_of_nonneg hH]
  have hf : candidateScore decodeImage im f =
      some ((getImageDimensions im).1 * (getImageDimensions im).2) := by
    rw [candidateScore_ok decodeImage im fl f hd hdim, ← htot,
      ((score_getPixels im fl hdim).2).mpr hsig]
  have hres : findClosestMatch decodeImage im (pre ++ f :: post) =
      (f, (getImageDimensions im).1 * (getImageDimensions im).2, none) := by
    rw [findClosestMatch_eq_runLoop]
    apply runLoop_earliest decodeImage im pre post f _ hf hpos
    · intro g hg t ht
      obtain ⟨gl, hgd, hgdim, rfl⟩ := candidateScore_some decodeImage im g t ht
      rw [← htot]
      apply lt_of_le_of_ne (score_getPixels im gl hgdim).1
      intro heq
      exact hpre g hg gl hgd hgdim (((score_getPixels im gl hgdim).2).mp heq)
    · intro g _ t ht
      obtain ⟨gl, _, hgdim, rfl⟩ := candidateScore_some decodeImage im g t ht
      rw [← htot]
      exact (score_getPixels im gl hgdim).1
  refine ⟨hres, ?_⟩
  intro gl hgl
  rw [hres] at hgl
  simp only at hgl
  rw [hd] at hgl
  cases hgl
  exact hsig

theorem findClosestMatch_exact_match_witness :
    findClosestMatch sampleFiles redRed (["a.png", "c.png"] ++ "b.png" :: ["d.png"]) =
      ("b.png", 2 * 1, none) :=
  (findClosestMatch_exact_match sampleFiles redRed redRed ["a.png", "c.png"] ["d.png"] "b.png"
    (by decide) (by decide) rfl rfl (fun _ => rfl)
    (by
      intro g hg gl hgl hdim hs
      simp only [List.mem_cons, List.mem_singleton, List.not_mem_nil, or_false] at hg
      rcases hg with rfl | rfl
      · have h0 : sampleFiles ("flags/" ++ "a.png") = .ok redBlue := rfl
        rw [h0] at hgl
        cases hgl
        have h1 := hs { R := 0, G := 0, B := 255 }
        revert h1
        decide
      · have h0 : sampleFiles ("flags/" ++ "c.png") = .ok red3 := rfl
        rw [h0] at hgl
        cases hgl
        revert hdim
        decide)).1

/-! ## Evaluations on concrete inputs -/

theorem eval_getPixels_redBlue :
    getPixels redBlue =
      ([({ R := 255, G := 0, B := 0 }, 1), ({ R := 0, G := 0, B := 255 }, 1)], none) := by
  decide

theorem eval_getPixels_redRed :
    getPixels redRed = ([({ R := 255, G := 0, B := 0 }, 2)], none) := by
  decide

theorem eval_compareImages_redRed_redBlue :
    compareImages (getPixels redRed).1 (getPixels redBlue).1 = (1, none) := by
  decide

theorem eval_compareImages_mismatch :
    compareImages sigRedRed sigBlue3 =
      (0, some "pixel count between the images are not the same") := by
  decide

theorem eval_findClosestMatch_zero_overlap :
    candidateScore sampleFiles blueBlue "b.png" = some 0 ∧
    findClosestMatch sampleFiles blueBlue ["b.png"] = ("", 0, none) := by
  decide

theorem eval_findClosestMatch_empty :
    findClosestMatch sampleFiles redRed [] = ("", 0, none) := by
  decide

theorem eval_findClosestMatch_sample :
    findClosestMatch sampleFiles redRed ["a.png", "e.png", "b.png", "c.png", "d.png"] =
      ("b.png", 2, none) := by
  decide

end Flags
